import Mathlib

/-!
Shallow embedding of src/Currency-Formatted-Input.tsx, a single React
currency input component.  JS strings are modelled as lists of
characters and JS numbers as rationals.  Each handler of the component
becomes a pure function from its inputs to the state it writes:
handleChange returns the new display string together with the value
passed to setValue (none when setValue is not invoked), handleFocus and
handleBlur return the new focus flag and display string, and the
value-change effect returns the new display string.
-/

namespace CurrencyInput

/-- The character class kept by the replace with the regex that drops
every character other than a digit or a decimal point, used by both
formatForDisplay (line 59) and handleChange (line 99). -/
def isDigitOrDot (c : Char) : Bool := c.isDigit || c == '.'

/-- JS String.prototype.split at the separator "." as used by addCommas,
formatForDisplay and handleChange: the list of maximal dot-free
segments, one more segment than there are dots. -/
def splitDots : List Char → List (List Char)
  | [] => [[]]
  | c :: r =>
    if c = '.' then [] :: splitDots r
    else (c :: (splitDots r).headD []) :: (splitDots r).tail

/-- The comma insertion performed on the integer part by the replace on
line 52 of the source, whose regex puts a comma at every non-boundary
position that is followed by a positive multiple of three digits.
Scanning an all-digit string from the left, a comma is inserted before a
character exactly when that character and the characters after it
number a positive multiple of three. -/
def addCommasInt : List Char → List Char
  | [] => []
  | [c] => [c]
  | c :: r => c :: (if r.length % 3 = 0 then ',' :: addCommasInt r else addCommasInt r)

/-- addCommas from the source (lines 50 to 54): split at dots, insert
commas into the first segment, rejoin with dots. -/
def addCommas (num : List Char) : List Char :=
  List.intercalate (['.']) (addCommasInt ((splitDots num).headD []) :: (splitDots num).tail)

/-- formatForDisplay from the source (lines 57 to 78). -/
def formatForDisplay (showCents showCurrencySymbol : Bool) (value : List Char) : List Char :=
  let cleanValue := value.filter isDigitOrDot
  if cleanValue = [] then []
  else
    let formattedValue :=
      if showCents then
        (splitDots cleanValue).headD [] ++
          (if 1 < (splitDots cleanValue).length then
            '.' :: ((splitDots cleanValue).getD 1 []).take 2
          else [])
      else (splitDots cleanValue).headD []
    if showCurrencySymbol = false then addCommas formattedValue
    else '$' :: addCommas formattedValue

/-- The sanitisation step of handleChange (lines 99 to 108): strip to
digits and dots, then keep the first segment and, when showCents is
true and a dot is present, the dot and the whole second segment.  Note
that unlike formatForDisplay it does not truncate the second segment to
two characters. -/
def cleanValueOf (showCents : Bool) (inputValue : List Char) : List Char :=
  let numericValue := inputValue.filter isDigitOrDot
  if showCents then
    (splitDots numericValue).headD [] ++
      (if 1 < (splitDots numericValue).length then
        '.' :: (splitDots numericValue).getD 1 []
      else [])
  else (splitDots numericValue).headD []

/-- The numeric value of one digit character. -/
def digitVal (c : Char) : ℕ := c.toNat - 48

/-- The numeric value of a most-significant-first digit string. -/
def digitsVal (l : List Char) : ℕ := l.foldl (fun a c => 10 * a + digitVal c) 0

/-- JS parseFloat on the strings this component feeds it (digits and
dots): an optional run of integer digits, then optionally a dot
followed by a run of fraction digits; NaN (none) when no digit is
read at all. -/
def jsParseFloat (l : List Char) : Option ℚ :=
  let ip := l.takeWhile Char.isDigit
  let fp :=
    match l.drop ip.length with
    | '.' :: r => r.takeWhile Char.isDigit
    | _ => []
  if ip = [] ∧ fp = [] then none
  else some ((digitsVal ip : ℚ) + (digitsVal fp : ℚ) / 10 ^ fp.length)

/-- The props of the component that the handlers read, with their
default values (lines 36 to 40); 9007199254740991 is
Number.MAX_SAFE_INTEGER. -/
structure Config where
  minValue : ℚ := 0
  maxValue : ℚ := 9007199254740991
  showCents : Bool := false
  showCurrencySymbol : Bool := true

/-- handleChange from the source (lines 95 to 124).  The first component
is the string passed to setDisplayValue, the second the number passed to
setValue, none when setValue is not invoked (the isNaN guard). -/
def handleChange (cfg : Config) (inputValue : List Char) : List Char × Option ℚ :=
  let cleanValue := cleanValueOf cfg.showCents inputValue
  let display := formatForDisplay cfg.showCents cfg.showCurrencySymbol cleanValue
  if cleanValue = [] then (display, some 0)
  else
    match jsParseFloat cleanValue with
    | none => (display, none)
    | some parsedValue =>
      let clampedValue := min cfg.maxValue (max cfg.minValue parsedValue)
      (display, some (if cfg.showCents then clampedValue else (⌊clampedValue⌋ : ℚ)))

/-- Modelled from the spec: the locale-aware number formatter used by
the authoritative path (Intl.NumberFormat with locale en-US, an external
capability outside src/), called with style currency when
showCurrencySymbol is true and decimal otherwise, and with minimum and
maximum fraction digits both 2 when showCents is true and both 0
otherwise.  For en-US and USD it prefixes a dollar sign in currency
style, groups the integer digits in threes with commas, and rounds to
the configured number of fraction digits. -/
def intlFormat (showCents showCurrencySymbol : Bool) (v : ℚ) : List Char :=
  let sym := if showCurrencySymbol then ['$'] else []
  if showCents then
    let n : ℤ := round (v * 100)
    sym ++ addCommasInt (Nat.toDigits 10 (n / 100).toNat) ++
      '.' :: (if (n % 100).toNat < 10 then '0' :: Nat.toDigits 10 (n % 100).toNat
              else Nat.toDigits 10 (n % 100).toNat)
  else
    sym ++ addCommasInt (Nat.toDigits 10 (round v).toNat)

/-- The value-change effect from the source (lines 81 to 93): the new
display string as a function of the focus flag, the value prop and the
current display string.  In the typed component the value prop is never
undefined, so the undefined check of line 84 is always true. -/
def valueEffect (showCents showCurrencySymbol : Bool) (isFocused : Bool) (value : ℚ)
    (displayValue : List Char) : List Char :=
  if isFocused = false ∧ value = 0 ∧ displayValue = [] then []
  else if value = 0 ∧ displayValue = [] then []
  else intlFormat showCents showCurrencySymbol value

/-- handleFocus from the source (lines 126 to 147): the new focus flag
and display string.  The cursor placement side effect targets only the
DOM selection and is not part of the state modelled here. -/
def handleFocus (showCents showCurrencySymbol : Bool) (value : ℚ) : Bool × List Char :=
  (true, if value = 0 then ['$'] else intlFormat showCents showCurrencySymbol value)

/-- handleBlur from the source (lines 149 to 163): the new focus flag
and display string. -/
def handleBlur (showCents showCurrencySymbol : Bool) (value : ℚ)
    (displayValue : List Char) : Bool × List Char :=
  (false,
    if value = 0 ∧ displayValue = ['$'] then []
    else if value ≠ 0 then intlFormat showCents showCurrencySymbol value
    else displayValue)

/-- The fraction portion of a display string: what follows the first
dot. -/
def fracPart (l : List Char) : List Char := (l.dropWhile (· ≠ '.')).drop 1

/-- A canonical numeric string in the sense of the glossary of the
spec: digits plus at most one decimal point. -/
abbrev Canonical (s : List Char) : Prop :=
  (∀ c ∈ s, isDigitOrDot c = true) ∧ s.count '.' ≤ 1

/-- A canonical numeric string as produced by the sanitiser for a given
showCents configuration: when showCents is false the sanitiser drops
everything from the first dot on, so its outputs are dot-free. -/
abbrev Sanitized (showCents : Bool) (s : List Char) : Prop :=
  Canonical s ∧ (showCents = false → '.' ∉ s)

/-- Written to the words of the spec for the grouping of the formatter:
insert a grouping separator every three digits counted from the right
of the integer portion. -/
def specGroupThreeFromRight (l : List Char) : List Char :=
  if l.length ≤ 3 then l
  else specGroupThreeFromRight (l.take (l.length - 3)) ++ ',' :: l.drop (l.length - 3)
termination_by l.length
decreasing_by simp only [List.length_take]; omega

/-! Basic facts about splitDots. -/

theorem splitDots_ne_nil (l : List Char) : splitDots l ≠ [] := by
  cases l with
  | nil => simp [splitDots]
  | cons c r => by_cases h : c = '.' <;> simp [splitDots, h]

theorem splitDots_of_not_mem (l : List Char) (h : '.' ∉ l) : splitDots l = [l] := by
  induction l with
  | nil => rfl
  | cons c r ih =>
    have hc : ¬c = '.' := fun hc => h (hc ▸ List.mem_cons_self c r)
    have ih2 := ih (fun hm => h (List.mem_cons_of_mem _ hm))
    simp [splitDots, hc, ih2]

theorem splitDots_append (a b : List Char) (h : '.' ∉ a) :
    splitDots (a ++ '.' :: b) = a :: splitDots b := by
  induction a with
  | nil => simp [splitDots]
  | cons c r ih =>
    have hc : ¬c = '.' := fun hc => h (hc ▸ List.mem_cons_self c r)
    have ih2 := ih (fun hm => h (List.mem_cons_of_mem _ hm))
    simp [splitDots, hc, ih2]

theorem splitDots_headD (l : List Char) :
    (splitDots l).headD [] = l.takeWhile (· ≠ '.') := by
  induction l with
  | nil => rfl
  | cons c r ih =>
    by_cases hc : c = '.'
    · subst hc
      rw [List.takeWhile_cons, if_neg (by simp)]
      simp [splitDots]
    · rw [List.takeWhile_cons, if_pos (by simp [hc]), ← ih]
      simp [splitDots, hc]

theorem splitDots_length (l : List Char) :
    (splitDots l).length = l.count '.' + 1 := by
  induction l with
  | nil => simp [splitDots]
  | cons c r ih =>
    by_cases hc : c = '.'
    · subst hc; simp [splitDots, ih, List.count_cons]
    · obtain ⟨h0, t0, he⟩ : ∃ h0 t0, splitDots r = h0 :: t0 := by
        rcases hs : splitDots r with _ | ⟨h0, t0⟩
        · exact absurd hs (splitDots_ne_nil r)
        · exact ⟨h0, t0, rfl⟩
      rw [he] at ih
      simp only [List.length_cons] at ih
      simp [splitDots, hc, he, List.count_cons]
      omega

theorem exists_dot_split (l : List Char) (h : '.' ∈ l) :
    ∃ a b, l = a ++ '.' :: b ∧ '.' ∉ a := by
  induction l with
  | nil => cases h
  | cons c r ih =>
    by_cases hc : c = '.'
    · exact ⟨[], r, by rw [hc]; rfl, List.not_mem_nil '.'⟩
    · have hr : '.' ∈ r := by
        rcases List.mem_cons.mp h with h1 | h1
        · exact absurd h1.symm hc
        · exact h1
      obtain ⟨a, b, rfl, ha⟩ := ih hr
      refine ⟨c :: a, b, rfl, fun hm => ?_⟩
      rcases List.mem_cons.mp hm with h1 | h1
      · exact hc h1.symm
      · exact ha h1

theorem mem_of_mem_splitDots (l : List Char) :
    ∀ x ∈ splitDots l, ∀ c ∈ x, c ∈ l ∧ c ≠ '.' := by
  induction l with
  | nil =>
    intro x hx c hc
    simp only [splitDots, List.mem_singleton] at hx
    subst hx
    cases hc
  | cons d r ih =>
    intro x hx c hc
    by_cases hd : d = '.'
    · subst hd
      rw [show splitDots ('.' :: r) = [] :: splitDots r from by simp [splitDots]] at hx
      rcases List.mem_cons.mp hx with h1 | h1
      · subst h1; cases hc
      · obtain ⟨h2, h3⟩ := ih x h1 c hc
        exact ⟨List.mem_cons_of_mem _ h2, h3⟩
    · obtain ⟨h0, t0, he⟩ : ∃ h0 t0, splitDots r = h0 :: t0 := by
        rcases hs : splitDots r with _ | ⟨h0, t0⟩
        · exact absurd hs (splitDots_ne_nil r)
        · exact ⟨h0, t0, rfl⟩
      rw [show splitDots (d :: r) = (d :: h0) :: t0 by simp [splitDots, hd, he]] at hx
      have hh0 : h0 ∈ splitDots r := by rw [he]; exact List.mem_cons_self _ _
      rcases List.mem_cons.mp hx with h1 | h1
      · subst h1
        rcases List.mem_cons.mp hc with h2 | h2
        · subst h2; exact ⟨List.mem_cons_self _ _, hd⟩
        · obtain ⟨h4, h5⟩ := ih h0 hh0 c h2
          exact ⟨List.mem_cons_of_mem _ h4, h5⟩
      · have hx0 : x ∈ splitDots r := by rw [he]; exact List.mem_cons_of_mem _ h1
        obtain ⟨h4, h5⟩ := ih x hx0 c hc
        exact ⟨List.mem_cons_of_mem _ h4, h5⟩

/-! Basic facts about addCommasInt. -/

theorem addCommasInt_cons (c : Char) (m : List Char) (hm : m ≠ []) :
    addCommasInt (c :: m) =
      c :: (if m.length % 3 = 0 then ',' :: addCommasInt m else addCommasInt m) := by
  cases m with
  | nil => exact absurd rfl hm
  | cons d r => rfl

theorem addCommasInt_short (l : List Char) (h : l.length ≤ 3) : addCommasInt l = l := by
  rcases l with _ | ⟨a, _ | ⟨b, _ | ⟨c, _ | ⟨d, t⟩⟩⟩⟩
  · rfl
  · rfl
  · rfl
  · rfl
  · simp only [List.length_cons] at h; omega

theorem mem_addCommasInt (l : List Char) (x : Char) (h : x ∈ addCommasInt l) :
    x ∈ l ∨ x = ',' := by
  induction l with
  | nil => cases h
  | cons c m ih =>
    cases m with
    | nil =>
      simp only [addCommasInt, List.mem_singleton] at h
      exact Or.inl (h ▸ List.mem_cons_self _ _)
    | cons d r =>
      rw [addCommasInt_cons c (d :: r) (by simp)] at h
      rcases List.mem_cons.mp h with h1 | h1
      · exact Or.inl (h1 ▸ List.mem_cons_self _ _)
      · by_cases h3 : (d :: r).length % 3 = 0
        · rw [if_pos h3] at h1
          rcases List.mem_cons.mp h1 with h2 | h2
          · exact Or.inr h2
          · rcases ih h2 with h4 | h4
            · exact Or.inl (List.mem_cons_of_mem _ h4)
            · exact Or.inr h4
        · rw [if_neg h3] at h1
          rcases ih h1 with h4 | h4
          · exact Or.inl (List.mem_cons_of_mem _ h4)
          · exact Or.inr h4

theorem filter_addCommasInt (p : Char → Bool) (hp : p ',' = false) (l : List Char) :
    (addCommasInt l).filter p = l.filter p := by
  induction l with
  | nil => rfl
  | cons c m ih =>
    cases m with
    | nil => rfl
    | cons d r =>
      rw [addCommasInt_cons c (d :: r) (by simp)]
      have key : (if (d :: r).length % 3 = 0 then ',' :: addCommasInt (d :: r)
          else addCommasInt (d :: r)).filter p = (d :: r).filter p := by
        split
        · simp only [List.filter_cons, hp, ih]
          simp
        · exact ih
      simp only [List.filter_cons]
      rw [key]
      simp [List.filter_cons]

theorem not_mem_addCommasInt (l : List Char) (x : Char) (hx : x ≠ ',') (h : x ∉ l) :
    x ∉ addCommasInt l := by
  intro hm
  rcases mem_addCommasInt l x hm with h1 | h1
  · exact h h1
  · exact hx h1

theorem addCommasInt_step (l : List Char) (h : 3 < l.length) :
    addCommasInt l = addCommasInt (l.take (l.length - 3)) ++ ',' :: l.drop (l.length - 3) := by
  induction l with
  | nil => simp at h
  | cons c rest ih =>
    simp only [List.length_cons] at h
    by_cases h3 : rest.length = 3
    · rw [addCommasInt_cons c rest (by intro he; rw [he] at h3; simp at h3)]
      rw [if_pos (by rw [h3])]
      rw [addCommasInt_short rest (le_of_eq h3)]
      have e1 : (c :: rest).length - 3 = 1 := by simp only [List.length_cons]; omega
      rw [e1]
      simp [addCommasInt]
    · have h4 : 3 < rest.length := by omega
      rw [addCommasInt_cons c rest (by intro he; rw [he] at h4; simp at h4)]
      rw [ih h4]
      have e1 : (c :: rest).length - 3 = (rest.length - 3) + 1 := by
        simp only [List.length_cons]; omega
      rw [e1, List.take_succ_cons, List.drop_succ_cons]
      have hne : rest.take (rest.length - 3) ≠ [] := by
        intro he
        have := congrArg List.length he
        simp only [List.length_take, List.length_nil] at this
        omega
      rw [addCommasInt_cons c _ hne]
      have e2 : (rest.take (rest.length - 3)).length % 3 = rest.length % 3 := by
        simp only [List.length_take]
        omega
      rw [e2]
      by_cases h5 : rest.length % 3 = 0
      · rw [if_pos h5, if_pos h5]; simp
      · rw [if_neg h5, if_neg h5]; simp

theorem addCommasInt_eq_specGroup (l : List Char) :
    addCommasInt l = specGroupThreeFromRight l := by
  have key : ∀ n (m : List Char), m.length ≤ n → addCommasInt m = specGroupThreeFromRight m := by
    intro n
    induction n with
    | zero =>
      intro m hm
      have hm0 : m = [] := List.length_eq_zero.mp (Nat.le_zero.mp hm)
      subst hm0
      rw [specGroupThreeFromRight]
      simp [addCommasInt]
    | succ n ih =>
      intro m hm
      by_cases h3 : m.length ≤ 3
      · rw [addCommasInt_short m h3, specGroupThreeFromRight, if_pos h3]
      · push_neg at h3
        rw [addCommasInt_step m h3, specGroupThreeFromRight, if_neg (by omega)]
        rw [ih (m.take (m.length - 3)) (by simp only [List.length_take]; omega)]
  exact key l.length l le_rfl

/-! Facts about addCommas. -/

theorem addCommas_of_not_mem (l : List Char) (h : '.' ∉ l) :
    addCommas l = addCommasInt l := by
  rw [addCommas, splitDots_of_not_mem l h]
  simp [List.intercalate]

theorem addCommas_split (a b : List Char) (ha : '.' ∉ a) (hb : '.' ∉ b) :
    addCommas (a ++ '.' :: b) = addCommasInt a ++ '.' :: b := by
  rw [addCommas, splitDots_append a b ha, splitDots_of_not_mem b hb]
  simp [List.intercalate]

/-! Facts about digit values and jsParseFloat. -/

theorem foldl_digits_from (l : List Char) (a : ℕ) :
    l.foldl (fun acc c => 10 * acc + digitVal c) a = a * 10 ^ l.length + digitsVal l := by
  induction l generalizing a with
  | nil => simp [digitsVal]
  | cons c r ih =>
    rw [List.foldl_cons, ih (10 * a + digitVal c)]
    rw [show digitsVal (c :: r) = r.foldl (fun acc x => 10 * acc + digitVal x) (digitVal c)
      from by simp [digitsVal]]
    rw [ih (digitVal c)]
    simp only [List.length_cons, pow_succ]
    ring

theorem digitsVal_append (a b : List Char) :
    digitsVal (a ++ b) = digitsVal a * 10 ^ b.length + digitsVal b := by
  rw [show digitsVal (a ++ b) = (a ++ b).foldl (fun acc c => 10 * acc + digitVal c) 0 from rfl]
  rw [List.foldl_append, foldl_digits_from]
  rfl

theorem digitVal_lt_ten (c : Char) (h : c.isDigit = true) : digitVal c < 10 := by
  unfold Char.isDigit at h
  rw [Bool.and_eq_true, decide_eq_true_eq, decide_eq_true_eq] at h
  have h2 : c.val.toNat ≤ (57 : UInt32).toNat := h.2
  have e : (57 : UInt32).toNat = 57 := rfl
  rw [e] at h2
  unfold digitVal Char.toNat
  omega

theorem digitsVal_lt (l : List Char) (h : ∀ c ∈ l, c.isDigit = true) :
    digitsVal l < 10 ^ l.length := by
  induction l with
  | nil => simp [digitsVal]
  | cons c r ih =>
    have e : digitsVal (c :: r) = digitVal c * 10 ^ r.length + digitsVal r := by
      rw [show (c :: r) = [c] ++ r from rfl, digitsVal_append]
      simp [digitsVal, digitVal]
    rw [e]
    have h1 := digitVal_lt_ten c (h c (List.mem_cons_self _ _))
    have h2 := ih (fun x hx => h x (List.mem_cons_of_mem _ hx))
    have h3 : digitVal c * 10 ^ r.length ≤ 9 * 10 ^ r.length :=
      Nat.mul_le_mul_right _ (by omega)
    have h4 : 9 * 10 ^ r.length + 10 ^ r.length = 10 ^ (r.length + 1) := by ring
    simp only [List.length_cons]
    omega

theorem takeWhile_digits_append (d1 b : List Char) (h : ∀ c ∈ d1, c.isDigit = true) :
    (d1 ++ '.' :: b).takeWhile Char.isDigit = d1 := by
  induction d1 with
  | nil => rw [List.nil_append, List.takeWhile_cons, if_neg (by decide)]
  | cons c r ih =>
    rw [List.cons_append, List.takeWhile_cons, if_pos (h c (List.mem_cons_self _ _))]
    rw [ih (fun x hx => h x (List.mem_cons_of_mem _ hx))]

theorem jsParseFloat_nil : jsParseFloat [] = none := rfl

theorem jsParseFloat_digits (l : List Char) (h : ∀ c ∈ l, c.isDigit = true) (hne : l ≠ []) :
    jsParseFloat l = some ((digitsVal l : ℚ)) := by
  have h1 : l.takeWhile Char.isDigit = l := List.takeWhile_eq_self_iff.mpr h
  simp only [jsParseFloat, h1, List.drop_length]
  rw [if_neg (by intro hand; exact hne hand.1)]
  norm_num [digitsVal]

theorem jsParseFloat_split (d1 d2 : List Char) (h1 : ∀ c ∈ d1, c.isDigit = true)
    (h2 : ∀ c ∈ d2, c.isDigit = true) (h : ¬(d1 = [] ∧ d2 = [])) :
    jsParseFloat (d1 ++ '.' :: d2) =
      some ((digitsVal d1 : ℚ) + (digitsVal d2 : ℚ) / 10 ^ d2.length) := by
  have ht : (d1 ++ '.' :: d2).takeWhile Char.isDigit = d1 := takeWhile_digits_append d1 d2 h1
  have hd : (d1 ++ '.' :: d2).drop d1.length = '.' :: d2 := List.drop_left d1 ('.' :: d2)
  have hf : d2.takeWhile Char.isDigit = d2 := List.takeWhile_eq_self_iff.mpr h2
  simp only [jsParseFloat, ht, hd, hf]
  rw [if_neg h]

/-! Characterisation of formatForDisplay. -/

theorem filter_isDigitOrDot_idem (v : List Char) :
    (v.filter isDigitOrDot).filter isDigitOrDot = v.filter isDigitOrDot := by
  rw [List.filter_filter]
  simp

theorem formatForDisplay_filter (sc sym : Bool) (v : List Char) :
    formatForDisplay sc sym (v.filter isDigitOrDot) = formatForDisplay sc sym v := by
  rw [formatForDisplay, formatForDisplay, filter_isDigitOrDot_idem]

theorem formatForDisplay_nil (sc sym : Bool) : formatForDisplay sc sym [] = [] := by
  simp [formatForDisplay]

theorem formatForDisplay_digits (sc sym : Bool) (l : List Char)
    (hne : l ≠ []) (h : ∀ c ∈ l, c.isDigit = true) :
    formatForDisplay sc sym l = (if sym then ['$'] else []) ++ addCommasInt l := by
  have hdot : '.' ∉ l := fun hm => absurd (h '.' hm) (by decide)
  have hfil : l.filter isDigitOrDot = l :=
    List.filter_eq_self.mpr (fun c hc => by simp [isDigitOrDot, h c hc])
  cases sc <;> cases sym <;>
    simp [formatForDisplay, hfil, hne, splitDots_of_not_mem l hdot,
      addCommas_of_not_mem l hdot]

theorem formatForDisplay_dot (sc sym : Bool) (d1 rest : List Char)
    (hd1 : '.' ∉ d1) (hall : ∀ c ∈ d1 ++ '.' :: rest, isDigitOrDot c = true) :
    formatForDisplay sc sym (d1 ++ '.' :: rest) =
      (if sym then ['$'] else []) ++ addCommasInt d1 ++
        (if sc then '.' :: (rest.takeWhile (· ≠ '.')).take 2 else []) := by
  have hfil : (d1 ++ '.' :: rest).filter isDigitOrDot = d1 ++ '.' :: rest :=
    List.filter_eq_self.mpr hall
  have hne : d1 ++ '.' :: rest ≠ [] := by simp
  obtain ⟨h0, t0, he⟩ : ∃ h0 t0, splitDots rest = h0 :: t0 := by
    rcases hs : splitDots rest with _ | ⟨h0, t0⟩
    · exact absurd hs (splitDots_ne_nil rest)
    · exact ⟨h0, t0, rfl⟩
  have hh0 : h0 = rest.takeWhile (· ≠ '.') := by
    have e := splitDots_headD rest
    rw [he] at e
    simpa using e
  have htw : '.' ∉ h0.take 2 := by
    rw [hh0]
    intro hm
    have hm2 : '.' ∈ rest.takeWhile (· ≠ '.') := List.take_subset 2 _ hm
    have := List.mem_takeWhile_imp hm2
    simp at this
  have hsplit := addCommas_split d1 (h0.take 2) hd1 htw
  have hnomem := addCommas_of_not_mem d1 hd1
  have hcond : (1 : ℕ) < t0.length + 1 + 1 := by omega
  have hh0n : h0 = List.takeWhile (fun x => !decide (x = '.')) rest := by
    simpa [ne_eq, decide_not] using hh0
  cases sc <;> cases sym <;>
    simp [formatForDisplay, hfil, hne, splitDots_append d1 rest hd1, he, if_pos hcond,
      hsplit, hnomem, ← hh0n, List.append_assoc]

/-! Case analysis helpers for handleChange. -/

theorem handleChange_empty (cfg : Config) (inputValue : List Char)
    (h : cleanValueOf cfg.showCents inputValue = []) :
    handleChange cfg inputValue = ([], some 0) := by
  simp [handleChange, h, formatForDisplay]

theorem handleChange_nan (cfg : Config) (inputValue cv : List Char)
    (h1 : cleanValueOf cfg.showCents inputValue = cv) (h2 : cv ≠ [])
    (h3 : jsParseFloat cv = none) :
    handleChange cfg inputValue =
      (formatForDisplay cfg.showCents cfg.showCurrencySymbol cv, none) := by
  simp only [handleChange, h1, h3, if_neg h2]

theorem handleChange_parse (cfg : Config) (inputValue cv : List Char) (q : ℚ)
    (h1 : cleanValueOf cfg.showCents inputValue = cv) (h2 : cv ≠ [])
    (h3 : jsParseFloat cv = some q) :
    handleChange cfg inputValue =
      (formatForDisplay cfg.showCents cfg.showCurrencySymbol cv,
        some (if cfg.showCents = true then min cfg.maxValue (max cfg.minValue q)
              else (⌊min cfg.maxValue (max cfg.minValue q)⌋ : ℚ))) := by
  simp only [handleChange, h1, h3, if_neg h2]

theorem handleChange_report_cases (cfg : Config) (inputValue : List Char) (v : ℚ)
    (h : (handleChange cfg inputValue).2 = some v) :
    (cleanValueOf cfg.showCents inputValue = [] ∧ v = 0) ∨
      ∃ q, jsParseFloat (cleanValueOf cfg.showCents inputValue) = some q ∧
        v = (if cfg.showCents = true then min cfg.maxValue (max cfg.minValue q)
             else (⌊min cfg.maxValue (max cfg.minValue q)⌋ : ℚ)) := by
  by_cases h1 : cleanValueOf cfg.showCents inputValue = []
  · rw [handleChange_empty cfg inputValue h1] at h
    exact Or.inl ⟨h1, by simpa using h.symm⟩
  · right
    rcases h3 : jsParseFloat (cleanValueOf cfg.showCents inputValue) with _ | q
    · rw [handleChange_nan cfg inputValue _ rfl h1 h3] at h
      simp at h
    · refine ⟨q, rfl, ?_⟩
      rw [handleChange_parse cfg inputValue _ q rfl h1 h3] at h
      simpa using h.symm

/-! Helpers about dropWhile, takeWhile and fracPart. -/

theorem takeWhile_not_dot_append (a b : List Char) (h : '.' ∉ a) :
    (a ++ '.' :: b).takeWhile (· ≠ '.') = a := by
  induction a with
  | nil => rw [List.nil_append, List.takeWhile_cons, if_neg (by simp)]
  | cons c m ih =>
    have hc : ¬c = '.' := fun hc => h (hc ▸ List.mem_cons_self c m)
    rw [List.cons_append, List.takeWhile_cons, if_pos (by simp [hc])]
    rw [ih (fun hm => h (List.mem_cons_of_mem _ hm))]

theorem takeWhile_not_dot_of_not_mem (l : List Char) (h : '.' ∉ l) :
    l.takeWhile (· ≠ '.') = l :=
  List.takeWhile_eq_self_iff.mpr (fun x hx => by
    simp only [decide_eq_true_eq]
    exact fun he => h (he ▸ hx))

theorem dropWhile_append_not_dot (a r : List Char) (h : '.' ∉ a) :
    (a ++ r).dropWhile (· ≠ '.') = r.dropWhile (· ≠ '.') := by
  induction a with
  | nil => rfl
  | cons c m ih =>
    have hc : ¬c = '.' := fun hc => h (hc ▸ List.mem_cons_self c m)
    rw [List.cons_append, List.dropWhile_cons, if_pos (by simp [hc])]
    exact ih (fun hm => h (List.mem_cons_of_mem _ hm))

theorem fracPart_of_not_mem (l : List Char) (h : '.' ∉ l) : fracPart l = [] := by
  rw [fracPart, List.dropWhile_eq_nil_iff.mpr]
  · rfl
  · intro x hx
    simp only [decide_eq_true_eq]
    exact fun he => h (he ▸ hx)

theorem fracPart_append_dot (a b : List Char) (h : '.' ∉ a) :
    fracPart (a ++ '.' :: b) = b := by
  rw [fracPart, dropWhile_append_not_dot a ('.' :: b) h, List.dropWhile_cons,
    if_neg (by simp)]
  rfl

/-! Characterisation of the sanitiser cleanValueOf. -/

theorem isDigit_of_isDigitOrDot (c : Char) (h : isDigitOrDot c = true) (hc : c ≠ '.') :
    c.isDigit = true := by
  simp only [isDigitOrDot, Bool.or_eq_true, beq_iff_eq] at h
  rcases h with h | h
  · exact h
  · exact absurd h hc

theorem cleanValueOf_false (inputValue : List Char) :
    cleanValueOf false inputValue =
      (inputValue.filter isDigitOrDot).takeWhile (· ≠ '.') := by
  have e := splitDots_headD (inputValue.filter isDigitOrDot)
  simp only [ne_eq, decide_not, List.headD_eq_head?_getD] at e
  simp [cleanValueOf, e]

theorem cleanValueOf_true_not_mem (inputValue : List Char)
    (h : '.' ∉ inputValue.filter isDigitOrDot) :
    cleanValueOf true inputValue = inputValue.filter isDigitOrDot := by
  simp [cleanValueOf, splitDots_of_not_mem _ h]

theorem cleanValueOf_true_dot (inputValue d1 rest : List Char)
    (he : inputValue.filter isDigitOrDot = d1 ++ '.' :: rest) (hd1 : '.' ∉ d1) :
    cleanValueOf true inputValue = d1 ++ '.' :: rest.takeWhile (· ≠ '.') := by
  obtain ⟨h0, t0, hsd⟩ : ∃ h0 t0, splitDots rest = h0 :: t0 := by
    rcases hs : splitDots rest with _ | ⟨h0, t0⟩
    · exact absurd hs (splitDots_ne_nil rest)
    · exact ⟨h0, t0, rfl⟩
  have hh0 : h0 = rest.takeWhile (· ≠ '.') := by
    have e := splitDots_headD rest
    rw [hsd] at e
    simpa using e
  have hcond : (1 : ℕ) < t0.length + 1 + 1 := by omega
  have hh0n : h0 = List.takeWhile (fun x => !decide (x = '.')) rest := by
    simpa [ne_eq, decide_not] using hh0
  simp [cleanValueOf, he, splitDots_append d1 rest hd1, hsd, if_pos hcond, ← hh0n]

theorem cleanValueOf_true_decomp (inputValue : List Char) :
    (cleanValueOf true inputValue = inputValue.filter isDigitOrDot ∧
      '.' ∉ inputValue.filter isDigitOrDot) ∨
    ∃ d1 rest, inputValue.filter isDigitOrDot = d1 ++ '.' :: rest ∧ '.' ∉ d1 ∧
      cleanValueOf true inputValue = d1 ++ '.' :: rest.takeWhile (· ≠ '.') := by
  by_cases hdot : '.' ∈ inputValue.filter isDigitOrDot
  · obtain ⟨d1, rest, he, hd1⟩ := exists_dot_split _ hdot
    exact Or.inr ⟨d1, rest, he, hd1, cleanValueOf_true_dot inputValue d1 rest he hd1⟩
  · exact Or.inl ⟨cleanValueOf_true_not_mem inputValue hdot, hdot⟩

theorem mem_cleanValueOf (sc : Bool) (inputValue : List Char) :
    ∀ c ∈ cleanValueOf sc inputValue, isDigitOrDot c = true := by
  intro c hc
  cases sc with
  | false =>
    rw [cleanValueOf_false] at hc
    have hc2 : c ∈ inputValue.filter isDigitOrDot :=
      (List.takeWhile_sublist _).subset hc
    exact (List.mem_filter.mp hc2).2
  | true =>
    rcases cleanValueOf_true_decomp inputValue with ⟨he, _⟩ | ⟨d1, rest, he, _, he2⟩
    · rw [he] at hc
      exact (List.mem_filter.mp hc).2
    · rw [he2] at hc
      rcases List.mem_append.mp hc with h1 | h1
      · have : c ∈ inputValue.filter isDigitOrDot := by
          rw [he]; exact List.mem_append.mpr (Or.inl h1)
        exact (List.mem_filter.mp this).2
      · rcases List.mem_cons.mp h1 with h2 | h2
        · subst h2; decide
        · have h3 : c ∈ rest := (List.takeWhile_sublist _).subset h2
          have : c ∈ inputValue.filter isDigitOrDot := by
            rw [he]
            exact List.mem_append.mpr (Or.inr (List.mem_cons_of_mem _ h3))
          exact (List.mem_filter.mp this).2

theorem handleChange_display (cfg : Config) (inputValue : List Char) :
    (handleChange cfg inputValue).1 =
      formatForDisplay cfg.showCents cfg.showCurrencySymbol
        (cleanValueOf cfg.showCents inputValue) := by
  by_cases h1 : cleanValueOf cfg.showCents inputValue = []
  · rw [handleChange_empty cfg inputValue h1, h1, formatForDisplay_nil]
  · rcases h3 : jsParseFloat (cleanValueOf cfg.showCents inputValue) with _ | q
    · rw [handleChange_nan cfg inputValue _ rfl h1 h3]
    · rw [handleChange_parse cfg inputValue _ q rfl h1 h3]

theorem intlFormat_zero (sc sym : Bool) :
    intlFormat sc sym 0 =
      (if sym then ['$'] else []) ++
        (if sc then ('0' :: '.' :: '0' :: ['0']) else ['0']) := by
  cases sc <;> cases sym <;> simp only [intlFormat, zero_mul, round_zero] <;> decide

theorem display_shape_cents (sym : Bool) (cv : List Char)
    (hall : ∀ c ∈ cv, isDigitOrDot c = true) :
    (formatForDisplay true sym cv).count '.' ≤ 1 ∧
      (fracPart (formatForDisplay true sym cv)).length ≤ 2 := by
  by_cases hne : cv = []
  · subst hne
    rw [formatForDisplay_nil]
    exact ⟨by simp, by simp [fracPart]⟩
  by_cases hdot : '.' ∈ cv
  · obtain ⟨d1, rest, rfl, hd1⟩ := exists_dot_split cv hdot
    rw [formatForDisplay_dot true sym d1 rest hd1 hall]
    have hBdot : '.' ∉ (rest.takeWhile (· ≠ '.')).take 2 := by
      intro hm
      have hm2 : '.' ∈ rest.takeWhile (· ≠ '.') := List.take_subset 2 _ hm
      have := List.mem_takeWhile_imp hm2
      simp at this
    have hpfx : '.' ∉ (if sym then ['$'] else []) := by cases sym <;> decide
    have hACI : '.' ∉ addCommasInt d1 := not_mem_addCommasInt d1 '.' (by decide) hd1
    have hcomb : '.' ∉ (if sym then ['$'] else []) ++ addCommasInt d1 := by
      intro hm
      rcases List.mem_append.mp hm with h1 | h1
      · exact hpfx h1
      · exact hACI h1
    constructor
    · have e1 : ((if sym then ['$'] else []) : List Char).count '.' = 0 :=
        List.count_eq_zero.mpr hpfx
      have e2 : (addCommasInt d1).count '.' = 0 := List.count_eq_zero.mpr hACI
      have e3 : ((rest.takeWhile (· ≠ '.')).take 2).count '.' = 0 :=
        List.count_eq_zero.mpr hBdot
      rw [if_pos rfl]
      simp only [List.count_append, List.count_cons, e1, e2, e3]
      simp
    · have e := fracPart_append_dot ((if sym then ['$'] else []) ++ addCommasInt d1)
        ((rest.takeWhile (· ≠ '.')).take 2) hcomb
      rw [if_pos rfl, e]
      simp [List.length_take]
  · have hdig : ∀ c ∈ cv, c.isDigit = true := fun c hc =>
      isDigit_of_isDigitOrDot c (hall c hc) (fun he => hdot (he ▸ hc))
    rw [formatForDisplay_digits true sym cv hne hdig]
    have hout : '.' ∉ (if sym then ['$'] else []) ++ addCommasInt cv := by
      intro hm
      rcases List.mem_append.mp hm with h1 | h1
      · cases sym <;> simp_all
      · rcases mem_addCommasInt cv '.' h1 with h2 | h2
        · exact hdot h2
        · exact absurd h2 (by decide)
    refine ⟨le_trans (le_of_eq (List.count_eq_zero.mpr hout)) (by omega), ?_⟩
    rw [fracPart_of_not_mem _ hout]
    simp

/-- C1 counterexample: typing "12.999" with showCents true makes
handleChange report the full parsed value 12999/1000 to setValue, which
differs from the truncated 1299/100 that the claim promises. -/
theorem c1_counterexample :
    (handleChange { showCents := true } ("12.999".data)).2 = some (12999/1000) ∧
      (12999/1000 : ℚ) ≠ 1299/100 := by
  have hparse : jsParseFloat ("12.999".data) = some (12999/1000) := by
    have e : jsParseFloat ("12.999".data) =
        some ((digitsVal ("12".data) : ℚ) +
          (digitsVal ("999".data) : ℚ) / 10 ^ (("999".data).length)) := rfl
    rw [e, show digitsVal ("12".data) = 12 from by decide,
      show digitsVal ("999".data) = 999 from by decide,
      show ("999".data).length = 3 from by decide]
    norm_num
  constructor
  · rw [handleChange_parse { showCents := true } _ ("12.999".data) (12999/1000)
      (by decide) (by decide) hparse]
    rw [max_eq_right (by norm_num), min_eq_right (by norm_num)]
    simp
  · norm_num

/-- C1 amended: with showCents true the truncation to two fraction digits
applies only to the display string, whose fraction part never exceeds two
digits and which carries at most one decimal point, while the value
reported through setValue is parsed from the sanitised string with its
full fraction: typing "12.999" displays the truncated string but reports
12999/1000. -/
theorem c1_display_truncation (mn mx : ℚ) (sym : Bool) (inputValue : List Char) :
    ((handleChange ⟨mn, mx, true, sym⟩ inputValue).1.count '.' ≤ 1 ∧
      (fracPart (handleChange ⟨mn, mx, true, sym⟩ inputValue).1).length ≤ 2) ∧
      handleChange { showCents := true } ("12.999".data) =
        (("$12.99".data), some (12999/1000)) := by
  constructor
  · rw [handleChange_display]
    exact display_shape_cents sym _ (mem_cleanValueOf true inputValue)
  · have hparse : jsParseFloat ("12.999".data) = some (12999/1000) := by
      have e : jsParseFloat ("12.999".data) =
          some ((digitsVal ("12".data) : ℚ) +
            (digitsVal ("999".data) : ℚ) / 10 ^ (("999".data).length)) := rfl
      rw [e, show digitsVal ("12".data) = 12 from by decide,
        show digitsVal ("999".data) = 999 from by decide,
        show ("999".data).length = 3 from by decide]
      norm_num
    rw [handleChange_parse { showCents := true } _ ("12.999".data) (12999/1000)
      (by decide) (by decide) hparse]
    rw [show formatForDisplay true true ("12.999".data) = ("$12.99".data) from by decide]
    rw [max_eq_right (by norm_num), min_eq_right (by norm_num)]
    simp

/-- C3 counterexample: a focus event with value 0 and showCurrencySymbol
false still sets the display to the dollar sign, not the empty string
the claim promises. -/
theorem c3_counterexample :
    (handleFocus false false 0).2 = ['$'] ∧ (['$'] : List Char) ≠ [] := by
  exact ⟨by simp [handleFocus], by decide⟩

/-- C3 amended: on a focus event the flag becomes true and, when the
value is 0, the display becomes the dollar sign regardless of
showCurrencySymbol; for a nonzero value it becomes the authoritative
rendering of the value. -/
theorem c3_focus_transition (sc sym : Bool) (v : ℚ) :
    (handleFocus sc sym v).1 = true ∧
      (handleFocus sc true 0).2 = (handleFocus sc false 0).2 ∧
      (handleFocus sc sym v).2 = (if v = 0 then ['$'] else intlFormat sc sym v) :=
  ⟨rfl, by simp [handleFocus], rfl⟩

/-- C4 counterexample: loading value 0 from outside while unfocused with
a non-empty display (here the former rendering of 5) produces the
formatted zero, not the empty string. -/
theorem c4_counterexample :
    valueEffect false true false 0 ("$5".data) = ("$0".data) ∧
      (("$0".data) : List Char) ≠ [] := by
  constructor
  · rw [valueEffect, if_neg (by simp), if_neg (by simp)]
    rw [intlFormat_zero]
    decide
  · decide

/-- C4 amended: clearing all text yields the empty display and reports 0
through setValue, and an external load of value 0 while unfocused yields
the empty display exactly when the display is already empty; with a
non-empty display the formatted zero is rendered instead. -/
theorem c4_empty_vs_zero (cfg : Config) (sc sym : Bool) (d : List Char) :
    handleChange cfg [] = ([], some 0) ∧
      valueEffect sc sym false 0 d = (if d = [] then [] else intlFormat sc sym 0) := by
  constructor
  · apply handleChange_empty
    cases hsc : cfg.showCents <;> simp [cleanValueOf, splitDots, hsc]
  · by_cases hd : d = []
    · subst hd
      rw [if_pos rfl, valueEffect, if_pos (by simp)]
    · rw [if_neg hd, valueEffect, if_neg (by simp [hd]), if_neg (by simp [hd])]

/-- C5 counterexample: blurring with value 0 while the display reads the
typed zero leaves the display unchanged, although the authoritative
rendering with showCents true would be the formatted zero with two
fraction digits. -/
theorem c5_counterexample :
    (handleBlur true true 0 ("$0".data)).2 = ("$0".data) ∧
      intlFormat true true 0 = ("$0.00".data) ∧
      (("$0".data) : List Char) ≠ ("$0.00".data) := by
  refine ⟨?_, ?_, by decide⟩
  · simp [handleBlur]
  · rw [intlFormat_zero]
    decide

/-- C5 amended: on a blur event the flag becomes false; when the value is
0 and the display is exactly the dollar sign the display collapses to
empty; when the value is nonzero the authoritative rendering is
recomputed; in the remaining case of value 0 with any other display the
display is left unchanged rather than recomputed. -/
theorem c5_blur_transition (sc sym : Bool) (v : ℚ) (d : List Char) :
    (handleBlur sc sym v d).1 = false ∧
      (handleBlur sc sym v d).2 =
        (if v = 0 ∧ d = ['$'] then []
         else if v ≠ 0 then intlFormat sc sym v else d) :=
  ⟨rfl, rfl⟩

/-- C6: for every change event whose canonical numeric string is
non-empty but fails to parse, setValue is not invoked while the display
string is still updated to the formatted rendering of the sanitised
input. -/
theorem c6_unparsable_keeps_value (cfg : Config) (inputValue : List Char)
    (h2 : cleanValueOf cfg.showCents inputValue ≠ [])
    (h3 : jsParseFloat (cleanValueOf cfg.showCents inputValue) = none) :
    (handleChange cfg inputValue).2 = none ∧
      (handleChange cfg inputValue).1 =
        formatForDisplay cfg.showCents cfg.showCurrencySymbol
          (cleanValueOf cfg.showCents inputValue) := by
  rw [handleChange_nan cfg inputValue _ rfl h2 h3]
  exact ⟨rfl, rfl⟩

/-- C6 witness: a bare decimal point with showCents enabled sanitises to
a non-empty unparsable string, setValue is skipped, and the display is
still updated. -/
theorem c6_witness :
    (handleChange { showCents := true } (".".data)).2 = none ∧
      (handleChange { showCents := true } (".".data)).1 =
        formatForDisplay true true (cleanValueOf true (".".data)) :=
  c6_unparsable_keeps_value { showCents := true } (".".data) (by decide) (by decide)

/-- C7: when showCents is false, every value handleChange passes to
setValue is an integer. -/
theorem c7_integer_policy (mn mx : ℚ) (sym : Bool) (inputValue : List Char) :
    (handleChange ⟨mn, mx, false, sym⟩ inputValue).2 = none ∨
      ∃ n : ℤ, (handleChange ⟨mn, mx, false, sym⟩ inputValue).2 = some ((n : ℤ) : ℚ) := by
  rcases hv : (handleChange ⟨mn, mx, false, sym⟩ inputValue).2 with _ | v
  · exact Or.inl rfl
  · right
    rcases handleChange_report_cases _ _ v hv with ⟨h1, h2⟩ | ⟨q, hq, h2⟩
    · exact ⟨0, by rw [h2]; norm_num⟩
    · refine ⟨⌊min mx (max mn q)⌋, ?_⟩
      rw [h2]
      simp

/-- C2 counterexample: with minValue 3/2, maxValue 100 and showCents
false, the non-empty input "1" reports the floored value 1 through
setValue, which is below minValue. -/
theorem c2_counterexample :
    (handleChange ⟨3/2, 100, false, true⟩ ("1".data)).2 = some 1 ∧
      ¬((3 : ℚ)/2 ≤ 1) := by
  constructor
  · have hparse : jsParseFloat ("1".data) = some 1 := by
      rw [jsParseFloat_digits ("1".data) (by decide) (by decide),
        show digitsVal ("1".data) = 1 from by decide]
      norm_num
    rw [handleChange_parse ⟨3/2, 100, false, true⟩ _ ("1".data) 1
      (by decide) (by decide) hparse]
    rw [max_eq_left (by norm_num), min_eq_right (by norm_num)]
    norm_num
  · norm_num

/-- C2 amended: provided minValue ≤ maxValue, a reported value v is
either the report 0 for an empty canonical string, or satisfies
v ≤ maxValue and ⌊minValue⌋ ≤ v, with the full minValue ≤ v guaranteed
whenever showCents is true; when showCents is false the floor step can
report below a fractional minValue. -/
theorem c2_range_invariant (cfg : Config) (inputValue : List Char) (v : ℚ)
    (hmm : cfg.minValue ≤ cfg.maxValue)
    (hv : (handleChange cfg inputValue).2 = some v) :
    (cleanValueOf cfg.showCents inputValue = [] ∧ v = 0) ∨
      (v ≤ cfg.maxValue ∧ ((⌊cfg.minValue⌋ : ℚ) ≤ v ∧
        (cfg.showCents = true → cfg.minValue ≤ v))) := by
  rcases handleChange_report_cases cfg inputValue v hv with h | ⟨q, hq, h2⟩
  · exact Or.inl h
  · right
    have hmin_le : cfg.minValue ≤ min cfg.maxValue (max cfg.minValue q) :=
      le_min hmm (le_max_left _ _)
    have hle_max : min cfg.maxValue (max cfg.minValue q) ≤ cfg.maxValue := min_le_left _ _
    have hfl : ((⌊cfg.minValue⌋ : ℤ) : ℚ) ≤ cfg.minValue := Int.floor_le cfg.minValue
    by_cases hsc : cfg.showCents = true
    · rw [h2, if_pos hsc]
      exact ⟨hle_max, le_trans hfl hmin_le, fun _ => hmin_le⟩
    · rw [h2, if_neg hsc]
      refine ⟨le_trans (Int.floor_le _) hle_max, ?_, fun hc => absurd hc hsc⟩
      exact_mod_cast Int.floor_le_floor hmin_le

theorem handleChange_maxValue100_input500 :
    (handleChange { maxValue := 100 } ("500".data)).2 = some 100 := by
  have hparse : jsParseFloat ("500".data) = some 500 := by
    rw [jsParseFloat_digits ("500".data) (by decide) (by decide),
      show digitsVal ("500".data) = 500 from by decide]
    norm_num
  rw [handleChange_parse { maxValue := 100 } _ ("500".data) 500
    (by decide) (by decide) hparse]
  rw [max_eq_right (by norm_num), min_eq_left (by norm_num)]
  norm_num

/-- C2 witness: with bounds 0 and 100 the input "500" reports the
clamped value 100, which satisfies the amended range bounds. -/
theorem c2_witness :
    (cleanValueOf false ("500".data) = [] ∧ (100 : ℚ) = 0) ∨
      ((100 : ℚ) ≤ 100 ∧ (((⌊(0 : ℚ)⌋ : ℤ) : ℚ) ≤ 100 ∧ (false = true → (0 : ℚ) ≤ 100))) :=
  c2_range_invariant { maxValue := 100 } ("500".data) 100 (by decide)
    handleChange_maxValue100_input500

/-- C8: on every non-empty canonical numeric string the manual formatter
output is the optional dollar sign, then the integer portion grouped in
threes counted from the right, then the untouched comma-free truncated
fraction portion; typing "1000000" with the default configuration
displays the grouped string and reports 1000000. -/
theorem c8_formatter_shape (sc sym : Bool) (s : List Char)
    (hcanon : Canonical s) (hne : s ≠ []) :
    (formatForDisplay sc sym s =
        (if sym then ['$'] else []) ++
          specGroupThreeFromRight (s.takeWhile (· ≠ '.')) ++
          (if sc = true ∧ '.' ∈ s then '.' :: (fracPart s).take 2 else []) ∧
      ',' ∉ (fracPart s).take 2) ∧
      handleChange {} ("1000000".data) = (("$1,000,000".data), some 1000000) := by
  obtain ⟨hall, hcount⟩ := hcanon
  have hcomma : ',' ∉ s := fun hm => absurd (hall ',' hm) (by decide)
  refine ⟨?_, ?_⟩
  · by_cases hdot : '.' ∈ s
    · obtain ⟨d1, d2, rfl, hd1⟩ := exists_dot_split s hdot
      have hd2 : '.' ∉ d2 := by
        have h1 : (d1 ++ '.' :: d2).count '.' ≤ 1 := hcount
        rw [List.count_append, List.count_cons] at h1
        simp at h1
        refine List.count_eq_zero.mp ?_
        omega
      rw [formatForDisplay_dot sc sym d1 d2 hd1 hall]
      rw [takeWhile_not_dot_append d1 d2 hd1, fracPart_append_dot d1 d2 hd1]
      rw [takeWhile_not_dot_of_not_mem d2 hd2]
      rw [← addCommasInt_eq_specGroup]
      constructor
      · cases sc <;> simp [hdot]
      · intro hm
        have h2 : ',' ∈ d2 := List.take_subset 2 d2 hm
        exact hcomma (List.mem_append.mpr (Or.inr (List.mem_cons_of_mem _ h2)))
    · have hdig : ∀ c ∈ s, c.isDigit = true := fun c hc =>
        isDigit_of_isDigitOrDot c (hall c hc) (fun he => hdot (he ▸ hc))
      rw [formatForDisplay_digits sc sym s hne hdig]
      rw [takeWhile_not_dot_of_not_mem s hdot, ← addCommasInt_eq_specGroup]
      rw [fracPart_of_not_mem s hdot]
      exact ⟨by simp [hdot], by simp⟩
  · have hparse : jsParseFloat ("1000000".data) = some 1000000 := by
      rw [jsParseFloat_digits ("1000000".data) (by decide) (by decide),
        show digitsVal ("1000000".data) = 1000000 from by decide]
      norm_num
    rw [handleChange_parse {} _ ("1000000".data) 1000000 (by decide) (by decide) hparse]
    rw [show formatForDisplay false true ("1000000".data) = ("$1,000,000".data) from by decide]
    rw [max_eq_right (by norm_num), min_eq_right (by norm_num)]
    norm_num

/-- C8 witness: the canonical string "1000000" under the default
configuration. -/
theorem c8_witness :
    (formatForDisplay false true ("1000000".data) =
        (if true then ['$'] else []) ++
          specGroupThreeFromRight (("1000000".data).takeWhile (· ≠ '.')) ++
          (if false = true ∧ '.' ∈ ("1000000".data) then
            '.' :: (fracPart ("1000000".data)).take 2
          else []) ∧
      ',' ∉ (fracPart ("1000000".data)).take 2) ∧
      handleChange {} ("1000000".data) = (("$1,000,000".data), some 1000000) :=
  c8_formatter_shape false true ("1000000".data) (by decide) (by decide)

/-! Stripping the symbol and separators from formatter output. -/

theorem filter_strip (sym : Bool) (X : List Char) (hX : ∀ x ∈ X, isDigitOrDot x = true) :
    (((if sym then ['$'] else []) ++ addCommasInt X).filter isDigitOrDot) = X := by
  rw [List.filter_append, filter_addCommasInt isDigitOrDot (by decide) X,
    List.filter_eq_self.mpr hX]
  cases sym
  · simp
  · rw [if_pos rfl, show (['$'] : List Char).filter isDigitOrDot = [] from by decide]
    simp

theorem filter_strip_frac (sym : Bool) (X B : List Char)
    (hX : ∀ x ∈ X, isDigitOrDot x = true) (hB : ∀ x ∈ B, isDigitOrDot x = true) :
    (((if sym then ['$'] else []) ++ addCommasInt X ++ '.' :: B).filter isDigitOrDot) =
      X ++ '.' :: B := by
  rw [List.filter_append, filter_strip sym X hX]
  congr 1
  refine List.filter_eq_self.mpr ?_
  intro x hx
  rcases List.mem_cons.mp hx with h1 | h1
  · subst h1; decide
  · exact hB x h1

theorem trunc_diff (A b2 br : ℚ) (k2 : ℕ) (hbr0 : 0 ≤ br) (hbr : br < 10 ^ k2) :
    0 ≤ (A + (b2 * 10 ^ k2 + br) / (10 ^ 2 * 10 ^ k2)) - (A + b2 / 10 ^ 2) ∧
      (A + (b2 * 10 ^ k2 + br) / (10 ^ 2 * 10 ^ k2)) - (A + b2 / 10 ^ 2) < 1 / 10 ^ 2 := by
  have e : (A + (b2 * 10 ^ k2 + br) / (10 ^ 2 * 10 ^ k2)) - (A + b2 / 10 ^ 2) =
      br / (10 ^ 2 * 10 ^ k2) := by
    field_simp
    ring
  rw [e]
  constructor
  · positivity
  · rw [div_lt_div_iff₀ (by positivity) (by positivity)]
    nlinarith [pow_pos (show (0:ℚ) < 10 by norm_num) k2]

/-- C9: for every string as produced by the sanitiser for the given
showCents configuration, stripping the currency symbol and the grouping
separators from the manual formatter output and re-parsing yields the
parsed value of the input truncated at the configured precision: the
difference is nonnegative and smaller than one unit in the last kept
place, which is 1/10^2 with showCents and 1/10^0 = 1 without. -/
theorem c9_roundtrip (sc sym : Bool) (s : List Char) (hs : Sanitized sc s)
    (q : ℚ) (hq : jsParseFloat s = some q) :
    ∃ r, jsParseFloat ((formatForDisplay sc sym s).filter isDigitOrDot) = some r ∧
      0 ≤ q - r ∧ q - r < 1 / 10 ^ (if sc then 2 else 0) := by
  obtain ⟨⟨hall, hcount⟩, hnodot⟩ := hs
  have hne : s ≠ [] := by
    intro he
    rw [he, jsParseFloat_nil] at hq
    cases hq
  have hpow : (0:ℚ) < 1 / 10 ^ (if sc then 2 else 0) := by
    cases sc <;> norm_num
  by_cases hdot : '.' ∈ s
  · have hsc : sc = true := by
      cases sc
      · exact absurd hdot (hnodot rfl)
      · rfl
    subst hsc
    obtain ⟨d1, d2, rfl, hd1⟩ := exists_dot_split s hdot
    have hd2 : '.' ∉ d2 := by
      have h1 : (d1 ++ '.' :: d2).count '.' ≤ 1 := hcount
      rw [List.count_append, List.count_cons] at h1
      simp at h1
      refine List.count_eq_zero.mp ?_
      omega
    have hd1dig : ∀ c ∈ d1, c.isDigit = true := fun c hc =>
      isDigit_of_isDigitOrDot c (hall c (List.mem_append.mpr (Or.inl hc)))
        (fun he => hd1 (he ▸ hc))
    have hd2dig : ∀ c ∈ d2, c.isDigit = true := fun c hc =>
      isDigit_of_isDigitOrDot c
        (hall c (List.mem_append.mpr (Or.inr (List.mem_cons_of_mem _ hc))))
        (fun he => hd2 (he ▸ hc))
    have hndd : ¬(d1 = [] ∧ d2 = []) := by
      rintro ⟨rfl, rfl⟩
      rw [show jsParseFloat ([] ++ '.' :: []) = none from rfl] at hq
      cases hq
    rw [jsParseFloat_split d1 d2 hd1dig hd2dig hndd] at hq
    have hqe : q = (digitsVal d1 : ℚ) + (digitsVal d2 : ℚ) / 10 ^ d2.length :=
      (Option.some.inj hq).symm
    have htk : ∀ c ∈ d2.take 2, c.isDigit = true := fun c hc =>
      hd2dig c (List.take_subset 2 d2 hc)
    have hndd2 : ¬(d1 = [] ∧ d2.take 2 = []) := by
      rintro ⟨h1, h2⟩
      exact hndd ⟨h1, (List.take_eq_nil_iff.mp h2).resolve_left (by norm_num)⟩
    have hd1all : ∀ x ∈ d1, isDigitOrDot x = true := fun x hx =>
      hall x (List.mem_append.mpr (Or.inl hx))
    have htkall : ∀ x ∈ d2.take 2, isDigitOrDot x = true := fun x hx => by
      simp [isDigitOrDot, htk x hx]
    rw [formatForDisplay_dot true sym d1 d2 hd1 hall,
      takeWhile_not_dot_of_not_mem d2 hd2, if_pos rfl,
      filter_strip_frac sym d1 (d2.take 2) hd1all htkall,
      jsParseFloat_split d1 (d2.take 2) hd1dig htk hndd2]
    rcases le_or_lt d2.length 2 with hk | hk
    · rw [List.take_of_length_le hk]
      refine ⟨_, rfl, ?_, ?_⟩
      · rw [hqe, sub_self]
      · rw [hqe, sub_self]
        exact hpow
    · have e_take_len : (d2.take 2).length = 2 := by
        rw [List.length_take]
        omega
      have hsplit : digitsVal d2 =
          digitsVal (d2.take 2) * 10 ^ (d2.length - 2) + digitsVal (d2.drop 2) := by
        conv_lhs => rw [← List.take_append_drop 2 d2]
        rw [digitsVal_append, List.length_drop]
      have hsplitQ : (digitsVal d2 : ℚ) =
          (digitsVal (d2.take 2) : ℚ) * 10 ^ (d2.length - 2) +
            (digitsVal (d2.drop 2) : ℚ) := by
        exact_mod_cast hsplit
      have hbr : digitsVal (d2.drop 2) < 10 ^ (d2.length - 2) := by
        have h2 := digitsVal_lt (d2.drop 2) (fun c hc => hd2dig c (List.drop_subset 2 d2 hc))
        rwa [List.length_drop] at h2
      have e10 : (10:ℚ) ^ d2.length = 10 ^ 2 * 10 ^ (d2.length - 2) := by
        rw [← pow_add]
        congr 1
        omega
      have harith := trunc_diff (digitsVal d1 : ℚ) (digitsVal (d2.take 2) : ℚ)
        (digitsVal (d2.drop 2) : ℚ) (d2.length - 2) (by positivity) (by exact_mod_cast hbr)
      refine ⟨_, rfl, ?_, ?_⟩
      · rw [hqe, e_take_len, e10, hsplitQ]
        exact harith.1
      · rw [hqe, e_take_len, e10, hsplitQ]
        exact harith.2
  · have hdig : ∀ c ∈ s, c.isDigit = true := fun c hc =>
      isDigit_of_isDigitOrDot c (hall c hc) (fun he => hdot (he ▸ hc))
    rw [formatForDisplay_digits sc sym s hne hdig, filter_strip sym s hall]
    refine ⟨q, hq, ?_, ?_⟩
    · rw [sub_self]
    · rw [sub_self]
      exact hpow

/-- C9 witness: the sanitised string "12.999" with showCents true, whose
parse is 12 + 999/1000. -/
theorem c9_witness :
    ∃ r, jsParseFloat ((formatForDisplay true true ("12.999".data)).filter isDigitOrDot) =
        some r ∧
      0 ≤ ((digitsVal ("12".data) : ℚ) +
          (digitsVal ("999".data) : ℚ) / 10 ^ (("999".data).length)) - r ∧
      ((digitsVal ("12".data) : ℚ) +
          (digitsVal ("999".data) : ℚ) / 10 ^ (("999".data).length)) - r <
        1 / 10 ^ (if true then 2 else 0) :=
  c9_roundtrip true true ("12.999".data) (by decide)
    ((digitsVal ("12".data) : ℚ) + (digitsVal ("999".data) : ℚ) / 10 ^ (("999".data).length))
    rfl

/-- C10 counterexample: with showCents false and showCurrencySymbol true
the lone dot formats to the bare dollar sign, and formatting that output
again yields the empty string, so the formatter is not idempotent. -/
theorem c10_counterexample :
    formatForDisplay false true (formatForDisplay false true (".".data)) ≠
      formatForDisplay false true (".".data) := by decide

/-- C10 amended: re-formatting a formatted string is the identity except
in exactly the failing configuration: showCents false together with
showCurrencySymbol true on an input whose sanitised form is non-empty
with no digit before its first dot; there the first pass yields the bare
dollar sign and the second pass the empty string. -/
theorem c10_format_idempotent (sc sym : Bool) (s : List Char)
    (h : ¬(sc = false ∧ sym = true ∧ s.filter isDigitOrDot ≠ [] ∧
        (s.filter isDigitOrDot).takeWhile (· ≠ '.') = [])) :
    formatForDisplay sc sym (formatForDisplay sc sym s) = formatForDisplay sc sym s := by
  have hcall : ∀ x ∈ s.filter isDigitOrDot, isDigitOrDot x = true := fun x hx =>
    (List.mem_filter.mp hx).2
  have hfs : formatForDisplay sc sym s = formatForDisplay sc sym (s.filter isDigitOrDot) :=
    (formatForDisplay_filter sc sym s).symm
  by_cases hne : s.filter isDigitOrDot = []
  · have e : formatForDisplay sc sym s = [] := by rw [hfs, hne, formatForDisplay_nil]
    rw [e, formatForDisplay_nil]
  · by_cases hdot : '.' ∈ s.filter isDigitOrDot
    · obtain ⟨d1, rest, hceq, hd1⟩ := exists_dot_split _ hdot
      have hd1all : ∀ x ∈ d1, isDigitOrDot x = true := fun x hx =>
        hcall x (hceq ▸ List.mem_append.mpr (Or.inl hx))
      have hd1dig : ∀ x ∈ d1, x.isDigit = true := fun x hx =>
        isDigit_of_isDigitOrDot x (hd1all x hx) (fun he => hd1 (he ▸ hx))
      have hallc2 : ∀ x ∈ d1 ++ '.' :: rest, isDigitOrDot x = true := by
        rw [← hceq]
        exact hcall
      cases sc with
      | false =>
        have e1 : formatForDisplay false sym s =
            (if sym then ['$'] else []) ++ addCommasInt d1 := by
          rw [hfs, hceq, formatForDisplay_dot false sym d1 rest hd1 hallc2]
          simp
        by_cases hd1ne : d1 = []
        · have hsym : sym = false := by
            cases sym
            · rfl
            · exfalso
              apply h
              refine ⟨rfl, rfl, hne, ?_⟩
              rw [hceq, takeWhile_not_dot_append d1 rest hd1, hd1ne]
          subst hsym
          subst hd1ne
          rw [e1]
          simp [addCommasInt, formatForDisplay_nil]
        · have hstrip : (formatForDisplay false sym s).filter isDigitOrDot = d1 := by
            rw [e1, filter_strip sym d1 hd1all]
          have key : formatForDisplay false sym (formatForDisplay false sym s) =
              formatForDisplay false sym d1 :=
            (formatForDisplay_filter false sym _).symm.trans
              (congrArg (formatForDisplay false sym) hstrip)
          rw [key, formatForDisplay_digits false sym d1 hd1ne hd1dig, e1]
      | true =>
        have hsegall : ∀ x ∈ (rest.takeWhile (· ≠ '.')).take 2, isDigitOrDot x = true :=
          fun x hx => by
            have h1 : x ∈ rest.takeWhile (· ≠ '.') := List.take_subset 2 _ hx
            have h2 : x ∈ rest := (List.takeWhile_sublist _).subset h1
            exact hcall x (hceq ▸ List.mem_append.mpr (Or.inr (List.mem_cons_of_mem _ h2)))
        have hsegdot : '.' ∉ (rest.takeWhile (· ≠ '.')).take 2 := by
          intro hm
          have hm2 := List.mem_takeWhile_imp (List.take_subset 2 _ hm)
          simp at hm2
        have e1 : formatForDisplay true sym s =
            (if sym then ['$'] else []) ++ addCommasInt d1 ++
              '.' :: (rest.takeWhile (· ≠ '.')).take 2 := by
          rw [hfs, hceq, formatForDisplay_dot true sym d1 rest hd1 hallc2, if_pos rfl]
        have hstrip : (formatForDisplay true sym s).filter isDigitOrDot =
            d1 ++ '.' :: (rest.takeWhile (· ≠ '.')).take 2 := by
          rw [e1, filter_strip_frac sym d1 _ hd1all hsegall]
        have key : formatForDisplay true sym (formatForDisplay true sym s) =
            formatForDisplay true sym (d1 ++ '.' :: (rest.takeWhile (· ≠ '.')).take 2) :=
          (formatForDisplay_filter true sym _).symm.trans
            (congrArg (formatForDisplay true sym) hstrip)
        have hall3 : ∀ x ∈ d1 ++ '.' :: (rest.takeWhile (· ≠ '.')).take 2,
            isDigitOrDot x = true := by
          intro x hx
          rcases List.mem_append.mp hx with h1 | h1
          · exact hd1all x h1
          · rcases List.mem_cons.mp h1 with h2 | h2
            · subst h2
              decide
            · exact hsegall x h2
        rw [key, formatForDisplay_dot true sym d1 _ hd1 hall3, if_pos rfl,
          takeWhile_not_dot_of_not_mem _ hsegdot, List.take_take, e1]
        norm_num
    · have hdig : ∀ x ∈ s.filter isDigitOrDot, x.isDigit = true := fun x hx =>
        isDigit_of_isDigitOrDot x (hcall x hx) (fun he => hdot (he ▸ hx))
      have e1 : formatForDisplay sc sym s =
          (if sym then ['$'] else []) ++ addCommasInt (s.filter isDigitOrDot) := by
        rw [hfs, formatForDisplay_digits sc sym _ hne hdig]
      have hstrip : (formatForDisplay sc sym s).filter isDigitOrDot =
          s.filter isDigitOrDot := by
        rw [e1, filter_strip sym _ hcall]
      have key : formatForDisplay sc sym (formatForDisplay sc sym s) =
          formatForDisplay sc sym (s.filter isDigitOrDot) :=
        (formatForDisplay_filter sc sym _).symm.trans
          (congrArg (formatForDisplay sc sym) hstrip)
      rw [key, formatForDisplay_digits sc sym _ hne hdig, e1]

/-- C10 witness: with showCents true the formatter is idempotent even on
the lone dot input. -/
theorem c10_witness :
    formatForDisplay true true (formatForDisplay true true (".".data)) =
      formatForDisplay true true (".".data) :=
  c10_format_idempotent true true (".".data) (by decide)

end CurrencyInput
